import Mathlib

/-!
# Verification of the ghost-server request-processing pipeline

Shallow embedding of the pure cores of the `ghost-server` Rust service:
the PDF toolchain adapter (`ghostscript.rs`), the upload sink (`upload.rs`),
the in-memory rate limiter (`rate_limit.rs`), the Stripe webhook signature
check (`stripe_api.rs`) and the quota commit/release control flow of the
preflight and grayscale handlers (`handlers.rs`).

Machine integers are modelled as `Nat`/`Int`; `f64` decimal literals from
Ghostscript inkcov output are modelled exactly over `ℚ`; effectful calls
(subprocesses, the Convex backend, the filesystem) are modelled by passing
their outcomes as explicit arguments.
-/

namespace GhostServer

/-! ## String primitives

Structural char-list implementations of the string operations the Rust
code uses (`str::trim`, `str::to_ascii_lowercase`, `str::ends_with`,
splitting), so every definition evaluates by kernel reduction. -/

/-- Remove the trailing run of characters satisfying `p`. -/
def dropTrailing (p : Char → Bool) (l : List Char) : List Char :=
  (l.reverse.dropWhile p).reverse

/-- Rust `str::trim` (ASCII whitespace suffices for this program's
inputs). -/
def strTrim (s : String) : String :=
  String.mk (dropTrailing Char.isWhitespace (s.toList.dropWhile Char.isWhitespace))

/-- `strTrim s` is the empty string? -/
def strTrimIsEmpty (s : String) : Bool :=
  (strTrim s).toList.isEmpty

/-- Rust `char::to_ascii_lowercase`. -/
def asciiLower (c : Char) : Char :=
  if 'A' ≤ c && c ≤ 'Z' then Char.ofNat (c.toNat + 32) else c

/-- Rust `str::to_ascii_lowercase`. -/
def strAsciiLower (s : String) : String :=
  String.mk (s.toList.map asciiLower)

/-- Rust `str::ends_with` on char lists. -/
def strEndsWith (s suffix : String) : Bool :=
  let l := s.toList
  let suf := suffix.toList
  decide (suf.length ≤ l.length) && decide (l.drop (l.length - suf.length) = suf)

/-- Split a char list at every occurrence of `sep` (like
`str::split(sep)` for a one-character separator: `n` separators yield
`n + 1` pieces, empty pieces included). -/
def splitOnCharAux (sep : Char) : List Char → List Char → List (List Char)
  | [], acc => [acc.reverse]
  | c :: rest, acc =>
    if c = sep then acc.reverse :: splitOnCharAux sep rest []
    else splitOnCharAux sep rest (c :: acc)

/-- `str::split(sep)` for a one-character separator. -/
def splitOnChar (sep : Char) (s : String) : List String :=
  (splitOnCharAux sep s.toList []).map String.mk

/-- Pieces of a char list delimited by characters satisfying `p`
(empty pieces included). -/
def splitPredAux (p : Char → Bool) : List Char → List Char → List (List Char)
  | [], acc => [acc.reverse]
  | c :: rest, acc =>
    if p c then acc.reverse :: splitPredAux p rest []
    else splitPredAux p rest (c :: acc)

/-! ## Byte-scan form-field probe (ghostscript.rs, `analyze_pdf`)

`bytes.windows(15).any(|window| window == b"/Subtype /Widget")` -/

/-- Model of Rust `slice::windows(n)`: all contiguous sub-slices of length
`n`, in order; empty when the slice is shorter than `n`. -/
def windowsList (n : ℕ) (l : List α) : List (List α) :=
  if l.length < n then []
  else (List.range (l.length - n + 1)).map (fun i => (l.drop i).take n)

/-- The 16-byte literal `/Subtype /Widget` the scan compares against. -/
def widgetPattern : List ℕ :=
  "/Subtype /Widget".toList.map Char.toNat

/-- The form-field probe from `analyze_pdf`: scan windows of length 15 of
the file bytes for the literal `/Subtype /Widget` (as written in the
source, the window length is 15 while the literal is 16 bytes long). -/
def has_formfields_scan (bytes : List ℕ) : Bool :=
  (windowsList 15 bytes).any (fun w => decide (w = widgetPattern))

/-- `analyze_pdf`'s `has_formfields` field: the byte scan when the file is
readable, `false` on a read failure. -/
def has_formfields (fileBytes : Option (List ℕ)) : Bool :=
  match fileBytes with
  | some bytes => has_formfields_scan bytes
  | none => false

/-! ## `sanitize_base_name` (ghostscript.rs) -/

/-- Characters matched by the safe class `[a-zA-Z0-9_-]` of the
`NON_SAFE_RE` regex `[^a-zA-Z0-9_-]+`. -/
def isSafeChar (c : Char) : Bool :=
  ('a' ≤ c && c ≤ 'z') || ('A' ≤ c && c ≤ 'Z') || ('0' ≤ c && c ≤ '9') ||
    c = '_' || c = '-'

/-- `NON_SAFE_RE.replace_all(value, "_")`: each maximal run of characters
outside `[a-zA-Z0-9_-]` becomes a single `'_'`.  The flag records whether
the previous character belonged to an unsafe run. -/
def collapseUnsafe : Bool → List Char → List Char
  | _, [] => []
  | prevUnsafe, c :: rest =>
    if isSafeChar c then c :: collapseUnsafe false rest
    else if prevUnsafe then collapseUnsafe true rest
    else '_' :: collapseUnsafe true rest

/-- `EDGE_UNDERSCORE_RE.replace_all(.., "")` with pattern `^_+|_+$`: strip
the leading and the trailing run of underscores. -/
def dropEdgeUnderscores (l : List Char) : List Char :=
  dropTrailing (fun c => c = '_') (l.dropWhile (fun c => c = '_'))

/-- `sanitize_base_name` on the character list: collapse unsafe runs to
`'_'`, strip edge underscores, substitute `"document"` for an empty
result, truncate to 80 characters (`chars().take(80)`). -/
def sanitizeChars (l : List Char) : List Char :=
  if dropEdgeUnderscores (collapseUnsafe false l) = [] then "document".toList
  else (dropEdgeUnderscores (collapseUnsafe false l)).take 80

/-- `sanitize_base_name`. -/
def sanitize_base_name (value : String) : String :=
  String.mk (sanitizeChars value.toList)

/-! ## Ink-coverage parsing (ghostscript.rs)

`f64` values carried by inkcov lines are modelled exactly over `ℚ`; the
decimal-literal grammar below follows Rust's `str::parse::<f64>` for
finite decimal/scientific literals (the non-finite spellings `inf`/`nan`,
which cannot occur in inkcov output, are outside the numeric model). -/

/-- Numeric value of a digit string, most significant first. -/
def digitsToNat (ds : List Char) : ℕ :=
  ds.foldl (fun acc c => acc * 10 + (c.toNat - '0'.toNat)) 0

/-- Finite decimal/scientific literal: optional sign, integer digits,
optional `.` with fraction digits, optional `e`/`E` exponent with its own
optional sign; at least one mantissa digit and, if an exponent marker is
present, at least one exponent digit; the whole string must be consumed. -/
def parseDecimalChars (cs : List Char) : Option ℚ :=
  let (neg, cs) := match cs with
    | '-' :: rest => (true, rest)
    | '+' :: rest => (false, rest)
    | _ => (false, cs)
  let intDigits := cs.takeWhile Char.isDigit
  let cs := cs.dropWhile Char.isDigit
  let (fracDigits, cs) := match cs with
    | '.' :: rest => (rest.takeWhile Char.isDigit, rest.dropWhile Char.isDigit)
    | _ => ([], cs)
  if intDigits = [] ∧ fracDigits = [] then none
  else
    let mantissa : ℚ :=
      (digitsToNat intDigits : ℚ) +
        (digitsToNat fracDigits : ℚ) / ((10 : ℚ) ^ fracDigits.length)
    let signed : ℚ := if neg then -mantissa else mantissa
    match cs with
    | [] => some signed
    | e :: rest =>
      if e = 'e' ∨ e = 'E' then
        let (expNeg, rest) := match rest with
          | '-' :: r => (true, r)
          | '+' :: r => (false, r)
          | _ => (false, rest)
        let expDigits := rest.takeWhile Char.isDigit
        let rest := rest.dropWhile Char.isDigit
        if expDigits = [] ∨ rest ≠ [] then none
        else
          let ex : ℤ :=
            if expNeg then -(digitsToNat expDigits : ℤ) else (digitsToNat expDigits : ℤ)
          some (signed * (10 : ℚ) ^ ex)
      else none

/-- `str::parse::<f64>()` on a token, restricted to finite literals. -/
def parseDecimal (s : String) : Option ℚ :=
  parseDecimalChars s.toList

/-- `parse_f64_token`: try a straight float parse; if that fails and the
token contains a comma but no dot, retry with every comma replaced by a
dot. -/
def parse_f64_token (token : String) : Option ℚ :=
  match parseDecimal token with
  | some value => some value
  | none =>
    if token.toList.contains ',' ∧ ¬ token.toList.contains '.' then
      parseDecimal (String.mk (token.toList.map fun c => if c = ',' then '.' else c))
    else none

/-- Rust `str::split_whitespace`: whitespace-separated tokens, no empties. -/
def splitWs (s : String) : List String :=
  ((splitPredAux (fun c => c.isWhitespace) s.toList []).filter
    (fun t => ¬ t.isEmpty)).map String.mk

/-- Rust `[&str]::join(" ")`. -/
def joinSpace : List String → String
  | [] => ""
  | [s] => s
  | s :: rest => s ++ " " ++ joinSpace rest

/-- The four tokens `tokens[i..i+4]`, all parsed by `pf`. -/
def fourAt (pf : String → Option α) (tokens : List String) (i : ℕ) :
    Option (α × α × α × α) :=
  match (tokens.drop i).take 4 with
  | [a, b, c, d] =>
    match pf a, pf b, pf c, pf d with
    | some x, some y, some z, some w => some (x, y, z, w)
    | _, _, _, _ => none
  | _ => none

/-- The loop of `parse_inkcov_line`: scan `i` in `0..=len-4`, remembering
the last `i` whose four consecutive tokens all parse. -/
def lastFourMatch (pf : String → Option α) (tokens : List String) :
    Option (ℕ × α × α × α × α) :=
  (List.range (tokens.length - 3)).foldl
    (fun acc i =>
      match fourAt pf tokens i with
      | some (c, m, y, k) => some (i, c, m, y, k)
      | none => acc)
    none

/-- The index-and-value of the last `j < n` with `f j = some _`
(specification device for the `lastFourMatch` fold). -/
def lastHit (f : ℕ → Option β) : ℕ → Option (ℕ × β)
  | 0 => none
  | n + 1 =>
    match f n with
    | some v => some (n, v)
    | none => lastHit f n

/-- `parse_inkcov_line`, generic in the scalar parser `pf`
(instantiated with `parse_f64_token` in the pipeline): split the line on
whitespace, take the last run of four parsing tokens, join the tokens
after the run with single spaces as `ink_type`. -/
def parse_inkcov_line (pf : String → Option α) (line : String) :
    Option (α × α × α × α × String) :=
  let tokens := splitWs line
  if tokens.length < 4 then none
  else
    match lastFourMatch pf tokens with
    | none => none
    | some (i, c, m, y, k) =>
      let inkType := if i + 4 < tokens.length then
          joinSpace (tokens.drop (i + 4))
        else ""
      some (c, m, y, k, inkType)

/-- `{page, c, m, y, k, ink_type}` with exact rational coverage values. -/
structure ColorProfile where
  page : ℤ
  c : ℚ
  m : ℚ
  y : ℚ
  k : ℚ
  ink_type : String
deriving DecidableEq, Repr

/-- Rust `str::lines`: split on `\n`, drop a final empty segment, strip
one trailing `\r` per line. -/
def rustLines (s : String) : List String :=
  let parts := splitOnChar '\n' s
  let parts := if parts.getLast? = some "" then parts.dropLast else parts
  parts.map fun l => if strEndsWith l "\r" then String.mk l.toList.dropLast else l

/-- Loop body of `parse_inkcov_profiles`: number parsed profiles from 1,
stopping (Rust `break`) as soon as the next page index would exceed
`page_count`. -/
def parseInkcovAux (pageCount : ℤ) : List String → List ColorProfile → List ColorProfile
  | [], acc => acc
  | line :: rest, acc =>
    match parse_inkcov_line parse_f64_token line with
    | none => parseInkcovAux pageCount rest acc
    | some (c, m, y, k, ink) =>
      if ((acc.length : ℤ) + 1) > pageCount then acc
      else parseInkcovAux pageCount rest (acc ++ [⟨(acc.length : ℤ) + 1, c, m, y, k, ink⟩])

/-- `parse_inkcov_profiles`. -/
def parse_inkcov_profiles (output : String) (pageCount : ℤ) : List ColorProfile :=
  parseInkcovAux pageCount (rustLines output) []

/-- Rust `as usize` on an `i64` value. -/
def i64ToUsize (n : ℤ) : ℕ := (n % (2 : ℤ) ^ 64).toNat

/-- The `{c:0, m:0, y:0, k:0, ink_type:""}` padding profile. -/
def zeroProfile (page : ℤ) : ColorProfile := ⟨page, 0, 0, 0, 0, ""⟩

/-- The `while profiles.len() < expected` padding loop of
`normalize_profiles`, which runs exactly `expected - len` iterations,
each appending a zero profile numbered `len + 1`. -/
def padProfilesAux : ℕ → List ColorProfile → List ColorProfile
  | 0, ps => ps
  | n + 1, ps => padProfilesAux n (ps ++ [zeroProfile ((ps.length : ℤ) + 1)])

/-- `while profiles.len() < expected { push zero profile }`. -/
def padProfiles (expected : ℕ) (ps : List ColorProfile) : List ColorProfile :=
  padProfilesAux (expected - ps.length) ps

/-- `normalize_profiles`: truncate to `max(page_count, 0)` entries,
reassign page indices `1..len`, pad with zero profiles up to the expected
length. -/
def normalize_profiles (profiles : List ColorProfile) (pageCount : ℤ) :
    List ColorProfile :=
  padProfiles (i64ToUsize (max pageCount 0))
    (((if i64ToUsize (max pageCount 0) < profiles.length
        then profiles.take (i64ToUsize (max pageCount 0)) else profiles)).enum.map
      fun p => { p.2 with page := (p.1 : ℤ) + 1 })

/-- The `color_profiles` computation of `analyze_pdf`: parse the inkcov
output, and normalize when the parsed count differs from `page_count as
usize`. -/
def analyzeColorProfiles (inkcovOutput : String) (pageCount : ℤ) : List ColorProfile :=
  if (parse_inkcov_profiles inkcovOutput pageCount).length ≠ i64ToUsize pageCount then
    normalize_profiles (parse_inkcov_profiles inkcovOutput pageCount) pageCount
  else parse_inkcov_profiles inkcovOutput pageCount

/-! ## Page counting (ghostscript.rs, `get_pdf_page_count`) -/

/-- Rust `str::parse::<i64>`: optional sign, one or more digits, result
within the `i64` range. -/
def parseI64 (s : String) : Option ℤ :=
  let cs := s.toList
  let (neg, ds) := match cs with
    | '-' :: rest => (true, rest)
    | '+' :: rest => (false, rest)
    | _ => (false, cs)
  if ds = [] ∨ ¬ ds.all Char.isDigit then none
  else
    let v : ℤ := if neg then -(digitsToNat ds : ℤ) else (digitsToNat ds : ℤ)
    if v < -((2 : ℤ) ^ 63) ∨ (2 : ℤ) ^ 63 - 1 < v then none else some v

/-- One line of the multiline regex `^\s*Pages:\s+(\d+)\s*$`: returns the
captured digit group when the line matches. -/
def pagesLineDigits (line : String) : Option String :=
  let cs := line.toList.dropWhile Char.isWhitespace
  if cs.take 6 = "Pages:".toList then
    let cs := cs.drop 6
    let ws := cs.takeWhile Char.isWhitespace
    let cs := cs.dropWhile Char.isWhitespace
    if ws = [] then none
    else
      let ds := cs.takeWhile Char.isDigit
      let rest := cs.dropWhile Char.isDigit
      if ds = [] then none
      else if rest.all Char.isWhitespace then some (String.mk ds) else none
  else none

/-- First `Pages:` capture in the pdfinfo stdout (first multiline match). -/
def findPagesCapture (stdout : String) : Option String :=
  (rustLines stdout).findSome? pagesLineDigits

/-- Outcome of spawning `pdfinfo`: spawn failure, or an exit with a
success flag and captured stdout. -/
inductive PdfinfoResult where
  | spawnError
  | output (success : Bool) (stdout : String)

/-- `try_get_pdf_page_count_with_pdfinfo`: `none` on spawn failure,
non-success exit, missing `Pages:` capture, unparsable or non-positive
value; otherwise the positive page count. -/
def try_get_pdf_page_count_with_pdfinfo : PdfinfoResult → Option ℤ
  | .spawnError => none
  | .output false _ => none
  | .output true stdout =>
    match findPagesCapture stdout with
    | none => none
    | some digits =>
      match parseI64 digits with
      | some value => if value > 0 then some value else none
      | _ => none

/-- `raw` selection in the Ghostscript fallback: trimmed stdout, or
trimmed stderr when trimmed stdout is empty. -/
def gsRaw (stdout stderr : String) : String :=
  if strTrimIsEmpty stdout then strTrim stderr else strTrim stdout

/-- `get_pdf_page_count`: pdfinfo fast path, else Ghostscript fallback
(`run_command` outcome passed explicitly); unparsable or non-positive
Ghostscript output is an error. -/
def get_pdf_page_count (pdfinfo : PdfinfoResult)
    (gs : Except String (String × String)) : Except String ℤ :=
  match try_get_pdf_page_count_with_pdfinfo pdfinfo with
  | some count => .ok count
  | none =>
    match gs with
    | .error e => .error e
    | .ok (stdout, stderr) =>
      match parseI64 (gsRaw stdout stderr) with
      | none => .error "Invalid page count reported by Ghostscript."
      | some pageCount =>
        if pageCount ≤ 0 then .error "Invalid page count reported by Ghostscript."
        else .ok pageCount

/-! ## Upload sink (upload.rs)

The multipart stream is modelled as a list of parts; chunk payloads are
byte lists; the filesystem is modelled by a flag recording whether the
temp file written for the `file` part is still on disk when the function
returns.  `text` is the decoded body used by the `mode`/`engine`
branches. -/

/-- One multipart part: field name, client-supplied filename and content
type, body chunks, decoded text body. -/
structure Part where
  name : Option String
  filename : Option String
  contentType : Option String
  chunks : List (List ℕ)
  text : String
deriving DecidableEq

/-- The `UploadError` taxonomy. -/
inductive UploadError where
  | MissingFile
  | UnsupportedFileType
  | FileTooLarge
  | MultipartError
  | IoError
deriving DecidableEq, Repr

/-- Result of the sink: the original name and the bytes written. -/
structure UploadedFile where
  original_name : String
  content : List ℕ
deriving DecidableEq

/-- `UploadedPdfRequest`: uploaded file plus optional `mode`/`engine`. -/
structure UploadedPdfRequest where
  original_name : String
  content : List ℕ
  mode : Option String
  engine : Option String
deriving DecidableEq

/-- `original_name` defaulting: a missing filename becomes
`"document.pdf"`. -/
def uploadOriginalName (filename : Option String) : String :=
  filename.getD "document.pdf"

/-- The PDF gate: declared content type is `application/pdf`, or the
(possibly defaulted) filename lowercased ends in `.pdf`. -/
def isPdfUpload (filename contentType : Option String) : Bool :=
  contentType = some "application/pdf" ||
    strEndsWith (strAsciiLower (uploadOriginalName filename)) ".pdf"

/-- The chunk-writing loop: accumulate `total_size`; on exceeding
`max_size_bytes` stop (the partial file is deleted and `FileTooLarge`
raised by the caller); otherwise append the chunk to the file. -/
def writeChunks (maxSize : ℕ) : List (List ℕ) → ℕ → List ℕ → Option (List ℕ)
  | [], _, written => some written
  | chunk :: rest, total, written =>
    if total + chunk.length > maxSize then none
    else writeChunks maxSize rest (total + chunk.length) (written ++ chunk)

/-- `save_pdf_from_multipart`: scan parts for the first one named
`file`; gate on PDF type; stream chunks under the byte budget.  The
second component records whether the temp file is on disk on return. -/
def save_pdf_from_multipart (parts : List Part) (maxSize : ℕ) :
    Except UploadError UploadedFile × Bool :=
  match parts with
  | [] => (.error .MissingFile, false)
  | p :: rest =>
    if p.name ≠ some "file" then save_pdf_from_multipart rest maxSize
    else if ¬ isPdfUpload p.filename p.contentType then
      (.error .UnsupportedFileType, false)
    else
      match writeChunks maxSize p.chunks 0 [] with
      | none => (.error .FileTooLarge, false)
      | some content => (.ok ⟨uploadOriginalName p.filename, content⟩, true)

/-- Loop state of `save_pdf_with_mode_from_multipart` after the current
part: uploaded file (if any), `mode`, `engine`. -/
def savePdfWithModeAux (maxSize : ℕ) :
    List Part → Option UploadedFile → Option String → Option String →
      Except UploadError UploadedPdfRequest × Bool
  | [], uploaded, mode, engine =>
    match uploaded with
    | none => (.error .MissingFile, false)
    | some u => (.ok ⟨u.original_name, u.content, mode, engine⟩, true)
  | p :: rest, uploaded, mode, engine =>
    match p.name with
    | some n =>
      if n = "file" then
        if uploaded.isSome then savePdfWithModeAux maxSize rest uploaded mode engine
        else if ¬ isPdfUpload p.filename p.contentType then
          (.error .UnsupportedFileType, false)
        else
          match writeChunks maxSize p.chunks 0 [] with
          | none => (.error .FileTooLarge, false)
          | some content =>
            savePdfWithModeAux maxSize rest
              (some ⟨uploadOriginalName p.filename, content⟩) mode engine
      else if n = "mode" then
        savePdfWithModeAux maxSize rest uploaded
          (if ¬ (strTrim p.text).toList.isEmpty then some (strTrim p.text) else mode)
          engine
      else if n = "engine" then
        savePdfWithModeAux maxSize rest uploaded mode
          (if ¬ (strTrim p.text).toList.isEmpty then some (strTrim p.text) else engine)
      else savePdfWithModeAux maxSize rest uploaded mode engine
    | none => savePdfWithModeAux maxSize rest uploaded mode engine

/-- `save_pdf_with_mode_from_multipart`. -/
def save_pdf_with_mode_from_multipart (parts : List Part) (maxSize : ℕ) :
    Except UploadError UploadedPdfRequest × Bool :=
  savePdfWithModeAux maxSize parts none none none

/-! ## In-memory rate limiter (rate_limit.rs)

`Instant` is modelled as a natural number of time units since the
clock's minimum value; `Instant::checked_sub` hence fails exactly when
the window reaches past that minimum, and `unwrap_or(now)` then makes
the cutoff `now` itself, as in the source. -/

/-- `now.checked_sub(self.window).unwrap_or(now)`: the prune cutoff is
`now - window`, or `now` itself when the subtraction underflows. -/
def rlCutoff (window now : ℕ) : ℕ :=
  if window ≤ now then now - window else now

/-- One `check_and_count` call on a single key's bucket: pop timestamps
strictly older than the cutoff from the front, reject when
`max_requests` timestamps remain, otherwise record `now`. -/
def check_and_count (window maxRequests now : ℕ) (bucket : List ℕ) :
    Bool × List ℕ :=
  if maxRequests ≤ (bucket.dropWhile fun t => t < rlCutoff window now).length then
    (false, bucket.dropWhile fun t => t < rlCutoff window now)
  else (true, (bucket.dropWhile fun t => t < rlCutoff window now) ++ [now])

/-- Run a sequence of `check_and_count` calls for one key, returning the
admitted call times in order. -/
def rateLimiterRun (window maxRequests : ℕ) : List ℕ → List ℕ → List ℕ
  | _, [] => []
  | bucket, now :: rest =>
    match check_and_count window maxRequests now bucket with
    | (true, bucket) => now :: rateLimiterRun window maxRequests bucket rest
    | (false, bucket) => rateLimiterRun window maxRequests bucket rest

/-! ## Stripe webhook signature verification (stripe_api.rs)

HMAC-SHA256 is abstracted as a parameter `hmacHex : secret → message →
lowercase hex digest`; the payload is modelled as its UTF-8 string.  The
`subtle` constant-time byte comparison is functionally byte equality, so
digest comparison is string equality. -/

/-- `part.trim().splitn(2, '=')`: key before the first `=`, value after
it (empty when there is no `=`). -/
def splitKeyValue (s : String) : String × String :=
  let cs := s.toList
  let key := cs.takeWhile fun c => c ≠ '='
  if key.length = cs.length then (s, "")
  else (String.mk key, String.mk (cs.drop (key.length + 1)))

/-- The header-parsing loop of `verify_webhook_signature`: split on `,`,
trim each part; each `t` part re-assigns the timestamp to its parsed
value (or `none` on parse failure); each `v1` part appends its value. -/
def parseSigHeader (header : String) : Option ℤ × List String :=
  (splitOnChar ',' header).foldl
    (fun acc part =>
      let kv := splitKeyValue (strTrim part)
      if kv.1 = "t" then (parseI64 kv.2, acc.2)
      else if kv.1 = "v1" then (acc.1, acc.2 ++ [kv.2])
      else acc)
    (none, [])

/-- `verify_webhook_signature`: require a configured secret, a parsed
timestamp and at least one `v1` digest; reject timestamps more than 300
seconds from `now`; accept iff some `v1` equals the hex HMAC of
`"{t}.{payload}"`. -/
def verify_webhook_signature (hmacHex : String → String → String)
    (webhookSecret : Option String) (now : ℤ)
    (signatureHeader payload : String) : Except String Unit :=
  match webhookSecret with
  | none => .error "STRIPE_WEBHOOK_SECRET is not configured."
  | some secret =>
    let parsed := parseSigHeader signatureHeader
    match parsed.1 with
    | none => .error "Missing Stripe timestamp in signature."
    | some timestamp =>
      if parsed.2.isEmpty then .error "Missing Stripe v1 signature."
      else if 300 < |now - timestamp| then
        .error "Stripe signature timestamp outside tolerance."
      else
        let expected := hmacHex secret (toString timestamp ++ "." ++ payload)
        if parsed.2.any (fun candidate => candidate = expected) then .ok ()
        else .error "Invalid Stripe signature."

/-! ## Quota commit/release control flow (handlers.rs)

The handlers are modelled as functions of the outcomes of their external
calls (upload, page count, reservation, processing, commit, output
read), returning the response class together with the ordered list of
quota operations attempted. -/

/-- The fields of `QuotaReservation` the handlers branch on. -/
structure QuotaReservationM where
  allowed : Bool
  reservationId : Option String
deriving DecidableEq

/-- A quota operation attempted against the backend. -/
inductive QuotaEvent where
  | reserve
  | commit
  | release
deriving DecidableEq, Repr

/-- Response classes of `preflight_for_clerk_user`. -/
inductive PreflightResponse where
  | uploadError (e : UploadError)
  | analysis
  | quotaExceeded
  | serverError
deriving DecidableEq

/-- `preflight_for_clerk_user`: page count, reserve `2 × pages` units,
bail on denial; analyze; commit on analysis success (a commit transport
error fails the job after the attempt), release on analysis failure. -/
def preflight_for_clerk_user
    (upload : Except UploadError UploadedFile)
    (pageCount : Except String ℤ)
    (reserveRes : Except String QuotaReservationM)
    (analysisRes : Except String Unit)
    (commitRes : Except String Bool) :
    PreflightResponse × List QuotaEvent :=
  match upload with
  | .error e => (.uploadError e, [])
  | .ok _ =>
    match pageCount with
    | .error _ => (.serverError, [])
    | .ok _ =>
      match reserveRes with
      | .error _ => (.serverError, [.reserve])
      | .ok reservation =>
        if ¬ reservation.allowed then (.quotaExceeded, [.reserve])
        else
          match reservation.reservationId with
          | none => (.serverError, [.reserve])
          | some _ =>
            match analysisRes with
            | .ok _ =>
              match commitRes with
              | .error _ => (.serverError, [.reserve, .commit])
              | .ok _ => (.analysis, [.reserve, .commit])
            | .error _ => (.serverError, [.reserve, .release])

/-- Grayscale rendering mode. -/
inductive GrayscaleMode where
  | preview
  | production
deriving DecidableEq

/-- `GrayscaleMode::parse`: trim and ASCII-lowercase; empty or missing
defaults to preview. -/
def grayscaleModeParse (raw : Option String) : Except String GrayscaleMode :=
  let normalized := (raw.map fun v => strAsciiLower (strTrim v)).getD ""
  if normalized.toList.isEmpty || normalized = "preview" then .ok .preview
  else if normalized = "production" then .ok .production
  else .error "Invalid mode. Use \"preview\" or \"production\"."

/-- Response classes of `grayscale_for_clerk_user`. -/
inductive GrayscaleResponse where
  | uploadError (e : UploadError)
  | badMode
  | serverError
  | quotaExceeded
  | pdf
deriving DecidableEq

/-- `grayscale_for_clerk_user`: parse mode, page count, reserve
`page_count` units, bail on denial; convert; release on conversion
failure, commit on success (commit errors and uncommitted results are
only logged); then read and stream the output file. -/
def grayscale_for_clerk_user
    (upload : Except UploadError UploadedPdfRequest)
    (pageCount : Except String ℤ)
    (reserveRes : Except String QuotaReservationM)
    (conversionRes : Except String Unit)
    (_commitRes : Except String Bool)
    (readOutput : Except String (List ℕ)) :
    GrayscaleResponse × List QuotaEvent :=
  match upload with
  | .error e => (.uploadError e, [])
  | .ok uploaded =>
    match grayscaleModeParse uploaded.mode with
    | .error _ => (.badMode, [])
    | .ok _ =>
      match pageCount with
      | .error _ => (.serverError, [])
      | .ok _ =>
        match reserveRes with
        | .error _ => (.serverError, [.reserve])
        | .ok reservation =>
          if ¬ reservation.allowed then (.quotaExceeded, [.reserve])
          else
            match reservation.reservationId with
            | none => (.serverError, [.reserve])
            | some _ =>
              match conversionRes with
              | .error _ => (.serverError, [.reserve, .release])
              | .ok _ =>
                match readOutput with
                | .error _ => (.serverError, [.reserve, .commit])
                | .ok _ => (.pdf, [.reserve, .commit])

/-- The commit/release projection of an event trace. -/
def commitReleaseEvents (events : List QuotaEvent) : List QuotaEvent :=
  events.filter fun e => decide (e = .commit ∨ e = .release)

end GhostServer

deriving instance DecidableEq for Except

namespace GhostServer

/-! # Theorems -/

/-! ## C1 — the form-field byte scan -/

theorem length_of_mem_windowsList {n : ℕ} {l w : List α}
    (hw : w ∈ windowsList n l) : w.length = n := by
  unfold windowsList at hw
  split at hw
  · simp at hw
  · next hlen =>
    simp only [List.mem_map, List.mem_range] at hw
    obtain ⟨i, hi, rfl⟩ := hw
    simp only [List.length_take, List.length_drop]
    omega

theorem widgetPattern_length : widgetPattern.length = 16 := by decide

/-- C1. The probe scans 15-byte windows for a 16-byte literal, so
`has_formfields` is `false` on every input — including a file whose
bytes are exactly `/Subtype /Widget`, where the claim requires `true`. -/
theorem c1_has_formfields_always_false :
    has_formfields (some widgetPattern) = false ∧
      ∀ fileBytes : Option (List ℕ), has_formfields fileBytes = false := by
  have hall : ∀ fileBytes : Option (List ℕ), has_formfields fileBytes = false := by
    intro fileBytes
    match fileBytes with
    | none => rfl
    | some bytes =>
      show has_formfields_scan bytes = false
      unfold has_formfields_scan
      rw [List.any_eq_false]
      intro w hw
      simp only [decide_eq_true_eq]
      intro hcontra
      have h15 : w.length = 15 := length_of_mem_windowsList hw
      rw [hcontra, widgetPattern_length] at h15
      omega
  exact ⟨hall _, hall⟩

/-! ## C10 — positivity of `get_pdf_page_count` -/

theorem pdfinfo_page_count_pos {r : PdfinfoResult} {n : ℤ}
    (h : try_get_pdf_page_count_with_pdfinfo r = some n) : 0 < n := by
  unfold try_get_pdf_page_count_with_pdfinfo at h
  repeat' split at h
  all_goals first
    | (cases h; omega)
    | exact absurd h (by simp)

/-- C10. Whenever `get_pdf_page_count` returns `Ok`, the count is
strictly positive: the pdfinfo fast path only yields positive values,
and the Ghostscript fallback rejects unparsable or non-positive raw
output. -/
theorem c10_page_count_positive (pdfinfo : PdfinfoResult)
    (gs : Except String (String × String)) (n : ℤ)
    (h : get_pdf_page_count pdfinfo gs = .ok n) : 0 < n := by
  unfold get_pdf_page_count at h
  split at h
  · next hfast =>
    cases h
    exact pdfinfo_page_count_pos hfast
  · repeat' split at h
    all_goals first
      | (cases h; omega)
      | exact absurd h (by simp)

/-- C10 witness: a pdfinfo stdout reporting 7 pages. -/
theorem c10_witness :
    get_pdf_page_count (.output true "Producer: x\nPages: 7\n") (.error "gs absent")
        = .ok 7 ∧ (0 : ℤ) < 7 :=
  ⟨by decide, c10_page_count_positive (.output true "Producer: x\nPages: 7\n")
    (.error "gs absent") 7 (by decide)⟩

/-! ## C7 — Stripe webhook signature verification -/

/-- C7. With a configured secret, verification succeeds exactly when the
header parses to a timestamp `t` and a non-empty list of `v1` digests,
`|now − t| ≤ 300`, and some `v1` equals the digest of `"{t}.{payload}"`;
a missing secret is the distinct "not configured" failure.  The two
closing conjuncts instantiate the ±300 s boundary: `t = now − 300`
passes and `t = now − 301` fails. -/
theorem c7_verify_webhook_signature_characterization :
    (∀ (hmacHex : String → String → String) (secret : String) (now : ℤ)
        (header payload : String),
      verify_webhook_signature hmacHex (some secret) now header payload = .ok () ↔
        ∃ t, (parseSigHeader header).1 = some t ∧
          (parseSigHeader header).2 ≠ [] ∧ |now - t| ≤ 300 ∧
          hmacHex secret (toString t ++ "." ++ payload) ∈ (parseSigHeader header).2) ∧
    (∀ (hmacHex : String → String → String) (now : ℤ) (header payload : String),
      verify_webhook_signature hmacHex none now header payload =
        .error "STRIPE_WEBHOOK_SECRET is not configured.") ∧
    verify_webhook_signature (fun _ m => "h" ++ m) (some "s") 300 "t=0,v1=h0.p" "p"
        = .ok () ∧
    verify_webhook_signature (fun _ m => "h" ++ m) (some "s") 301 "t=0,v1=h0.p" "p"
        = .error "Stripe signature timestamp outside tolerance." := by
  refine ⟨?_, fun _ _ _ _ => rfl, by decide, by decide⟩
  intro hmacHex secret now header payload
  unfold verify_webhook_signature
  rcases hT : (parseSigHeader header).1 with _ | t
  · simp [hT]
  · simp only [hT]
    by_cases hv : (parseSigHeader header).2 = []
    · simp [hv]
    · by_cases htol : 300 < |now - t|
      · simp [hv, htol, hT, htol.not_le]
      · have hle : |now - t| ≤ 300 := not_lt.mp htol
        simp only [hv, htol, if_neg, if_false, List.isEmpty_eq_true, if_false]
        by_cases hmem :
            hmacHex secret (toString t ++ "." ++ payload) ∈ (parseSigHeader header).2
        · simp [hv, hle, hmem, List.any_eq_true]
        · simp [hv, hle, hmem, List.any_eq_true]

/-! ## C2 — exactly one commit/release after a successful reservation -/

/-- C2. In both handlers, on every execution that reaches a reservation
with `allowed = true` and a reservation id, the commit/release
projection of the attempted quota operations is exactly `[commit]` when
the processing step (analysis resp. conversion) succeeds and exactly
`[release]` when it fails. -/
theorem c2_exactly_one_commit_or_release :
    (∀ (u : UploadedFile) (pc : ℤ) (r : QuotaReservationM) (rid : String)
        (analysisRes : Except String Unit) (commitRes : Except String Bool),
      r.allowed = true → r.reservationId = some rid →
      commitReleaseEvents
          (preflight_for_clerk_user (.ok u) (.ok pc) (.ok r) analysisRes commitRes).2 =
        (if analysisRes.isOk then [QuotaEvent.commit] else [QuotaEvent.release])) ∧
    (∀ (u : UploadedPdfRequest) (pc : ℤ) (r : QuotaReservationM) (rid : String)
        (conversionRes : Except String Unit) (commitRes : Except String Bool)
        (readOutput : Except String (List ℕ)) (m : GrayscaleMode),
      grayscaleModeParse u.mode = .ok m →
      r.allowed = true → r.reservationId = some rid →
      commitReleaseEvents
          (grayscale_for_clerk_user (.ok u) (.ok pc) (.ok r) conversionRes commitRes
            readOutput).2 =
        (if conversionRes.isOk then [QuotaEvent.commit] else [QuotaEvent.release])) := by
  constructor
  · intro u pc r rid analysisRes commitRes hallowed hrid
    unfold preflight_for_clerk_user
    rcases analysisRes with e | v
    · simp [hallowed, hrid, commitReleaseEvents, Except.isOk, Except.toBool]
    · rcases commitRes with e | committed <;>
        simp [hallowed, hrid, commitReleaseEvents, Except.isOk, Except.toBool]
  · intro u pc r rid conversionRes commitRes readOutput m hmode hallowed hrid
    unfold grayscale_for_clerk_user
    rcases conversionRes with e | v
    · simp [hmode, hallowed, hrid, commitReleaseEvents, Except.isOk, Except.toBool]
    · rcases readOutput with e | bytes <;>
        simp [hmode, hallowed, hrid, commitReleaseEvents, Except.isOk, Except.toBool]

/-- C2 witness: a successful preflight analysis commits; a failed
grayscale conversion releases. -/
theorem c2_witness :
    commitReleaseEvents (preflight_for_clerk_user (.ok ⟨"a.pdf", []⟩) (.ok 1)
        (.ok ⟨true, some "r1"⟩) (.ok ()) (.ok true)).2 = [QuotaEvent.commit] ∧
    commitReleaseEvents (grayscale_for_clerk_user (.ok ⟨"a.pdf", [], none, none⟩) (.ok 1)
        (.ok ⟨true, some "r2"⟩) (.error "gs failed") (.ok true) (.ok [])).2 =
      [QuotaEvent.release] := by
  constructor
  · have h := c2_exactly_one_commit_or_release.1 ⟨"a.pdf", []⟩ 1 ⟨true, some "r1"⟩ "r1"
      (.ok ()) (.ok true) rfl rfl
    simpa using h
  · have h := c2_exactly_one_commit_or_release.2 ⟨"a.pdf", [], none, none⟩ 1
      ⟨true, some "r2"⟩ "r2" (.error "gs failed") (.ok true) (.ok []) .preview
      (by decide) rfl rfl
    simpa using h

/-! ## C4 — `sanitize_base_name` idempotence -/

set_option maxRecDepth 8000 in
/-- C4 counterexample: on 79 `a`s followed by `_b` (81 characters, all
safe, no edge underscores) the 80-character truncation exposes a
trailing underscore, which a second pass strips, so
`sanitize_base_name` is not idempotent. -/
theorem c4_counterexample :
    sanitize_base_name
        (sanitize_base_name (String.mk (List.replicate 79 'a' ++ ['_', 'b']))) ≠
      sanitize_base_name (String.mk (List.replicate 79 'a' ++ ['_', 'b'])) := by
  decide

theorem isSafeChar_of_mem_collapseUnsafe {c : Char} :
    ∀ {prev : Bool} {l : List Char}, c ∈ collapseUnsafe prev l → isSafeChar c = true := by
  intro prev l
  induction l generalizing prev with
  | nil => intro h; simp [collapseUnsafe] at h
  | cons d rest ih =>
    intro h
    unfold collapseUnsafe at h
    by_cases hd : isSafeChar d = true
    · rw [if_pos hd] at h
      rcases List.mem_cons.mp h with rfl | h
      · exact hd
      · exact ih h
    · rw [if_neg hd] at h
      cases prev with
      | true => exact ih (by simpa using h)
      | false =>
        simp only [Bool.false_eq_true, if_false] at h
        rcases List.mem_cons.mp h with rfl | h
        · decide
        · exact ih h

theorem collapseUnsafe_eq_self {l : List Char}
    (h : ∀ c ∈ l, isSafeChar c = true) : collapseUnsafe false l = l := by
  induction l with
  | nil => rfl
  | cons d rest ih =>
    unfold collapseUnsafe
    rw [if_pos (h d (List.mem_cons_self d rest))]
    rw [ih fun c hc => h c (List.mem_cons_of_mem d hc)]

theorem mem_of_mem_dropTrailing {p : Char → Bool} {c : Char} {l : List Char}
    (h : c ∈ dropTrailing p l) : c ∈ l := by
  unfold dropTrailing at h
  rw [List.mem_reverse] at h
  have := (List.dropWhile_sublist p).subset h
  rwa [List.mem_reverse] at this

theorem getLast?_dropTrailing {p : Char → Bool} {c : Char} {l : List Char}
    (h : (dropTrailing p l).getLast? = some c) : p c = false := by
  unfold dropTrailing at h
  rw [List.getLast?_reverse] at h
  have := List.head?_dropWhile_not p l.reverse
  rw [h] at this
  exact this

theorem dropTrailing_eq_self {p : Char → Bool} {l : List Char}
    (h : ∀ c, l.getLast? = some c → p c = false) : dropTrailing p l = l := by
  unfold dropTrailing
  cases hr : l.reverse with
  | nil =>
    rw [List.reverse_eq_nil_iff] at hr
    rw [hr]
    rfl
  | cons x xs =>
    have hx : l.getLast? = some x := by
      rw [List.getLast?_eq_head?_reverse, hr]
      rfl
    rw [List.dropWhile_cons_of_neg (by simp [h x hx]), ← hr, List.reverse_reverse]

theorem head?_dropTrailing {p : Char → Bool} {l : List Char}
    (h : dropTrailing p l ≠ []) : (dropTrailing p l).head? = l.head? := by
  unfold dropTrailing at h ⊢
  rw [List.head?_reverse]
  obtain ⟨pre, hpre⟩ := List.dropWhile_suffix (l := l.reverse) p
  have hne : l.reverse.dropWhile p ≠ [] := by
    intro hcontra
    rw [hcontra] at h
    exact h rfl
  conv_rhs => rw [List.head?_eq_getLast?_reverse, ← hpre, List.getLast?_append]
  cases hg : (l.reverse.dropWhile p).getLast? with
  | some x => rfl
  | none =>
    rw [List.getLast?_eq_none_iff] at hg
    exact absurd hg hne

/-- C4 amended: `sanitize_base_name` is idempotent on every input whose
sanitized form does not end in `'_'` (truncation to 80 characters can
expose a trailing underscore, which a second pass strips). -/
theorem c4_sanitize_idempotent_unless_trailing_underscore (s : String)
    (h : (sanitize_base_name s).toList.getLast? ≠ some '_') :
    sanitize_base_name (sanitize_base_name s) = sanitize_base_name s := by
  have hmain : sanitizeChars (sanitizeChars s.toList) = sanitizeChars s.toList := by
    by_cases ht : dropEdgeUnderscores (collapseUnsafe false s.toList) = []
    · have hs : sanitizeChars s.toList = "document".toList := by
        unfold sanitizeChars
        rw [if_pos ht]
      rw [hs]
      decide
    · have hs : sanitizeChars s.toList =
          (dropEdgeUnderscores (collapseUnsafe false s.toList)).take 80 := by
        unfold sanitizeChars
        rw [if_neg ht]
      have hlast : (sanitizeChars s.toList).getLast? ≠ some '_' := h
      rw [hs] at hlast ⊢
      generalize htdef : dropEdgeUnderscores (collapseUnsafe false s.toList) = t at *
      -- every character of `t.take 80` is safe
      have hsafe : ∀ c ∈ t.take 80, isSafeChar c = true := by
        intro c hc
        have hct : c ∈ t := List.take_subset 80 t hc
        rw [← htdef] at hct
        unfold dropEdgeUnderscores at hct
        have hcd := mem_of_mem_dropTrailing hct
        have hcu : c ∈ collapseUnsafe false s.toList :=
          (List.dropWhile_sublist _).subset hcd
        exact isSafeChar_of_mem_collapseUnsafe hcu
      -- the head of `t.take 80` is not an underscore
      have htake_ne : t.take 80 ≠ [] := by
        cases htc : t with
        | nil => exact absurd htc ht
        | cons x xs => simp [htc]
      have hhead : ∀ c, (t.take 80).head? = some c → ¬ c = '_' := by
        intro c hc hceq
        have hht : t.head? = some c := by
          cases htc : t with
          | nil => exact absurd htc ht
          | cons x xs =>
            rw [htc] at hc
            simpa using hc
        have hdw :
            ((collapseUnsafe false s.toList).dropWhile (fun c => c = '_')).head?
              = some c := by
          rw [← htdef] at hht ht
          unfold dropEdgeUnderscores at hht ht
          rw [head?_dropTrailing ht] at hht
          exact hht
        have hnot := List.head?_dropWhile_not (fun c => decide (c = '_'))
          (collapseUnsafe false s.toList)
        rw [hdw] at hnot
        rw [hceq] at hnot
        simp at hnot
      -- second pass
      unfold sanitizeChars
      rw [collapseUnsafe_eq_self hsafe]
      unfold dropEdgeUnderscores
      have hdw80 : (t.take 80).dropWhile (fun c => c = '_') = t.take 80 := by
        cases htc : t.take 80 with
        | nil => rfl
        | cons x xs =>
          have hx : ¬ x = '_' := hhead x (by rw [htc]; rfl)
          rw [List.dropWhile_cons_of_neg (by simpa using hx)]
      rw [hdw80]
      rw [dropTrailing_eq_self (fun c hc => by
        have : ¬ c = '_' := fun hceq => hlast (by rw [hc, hceq])
        simpa using this)]
      rw [if_neg htake_ne]
      simp [List.take_take]
  show String.mk (sanitizeChars (String.mk (sanitizeChars s.toList)).toList) = _
  exact congrArg String.mk hmain

/-- C4 witness for the amended statement. -/
theorem c4_witness :
    (sanitize_base_name "Hello World!").toList.getLast? ≠ some '_' ∧
      sanitize_base_name (sanitize_base_name "Hello World!") =
        sanitize_base_name "Hello World!" :=
  ⟨by decide, c4_sanitize_idempotent_unless_trailing_underscore "Hello World!" (by decide)⟩

/-! ## C5 — upload size budget -/

theorem writeChunks_eq_none_iff {maxSize : ℕ} :
    ∀ (chunks : List (List ℕ)) {total : ℕ} (written : List ℕ),
      total ≤ maxSize →
      (writeChunks maxSize chunks total written = none ↔
        maxSize < total + (chunks.map List.length).sum) := by
  intro chunks
  induction chunks with
  | nil =>
    intro total written h
    simp [writeChunks]
    omega
  | cons c rest ih =>
    intro total written h
    unfold writeChunks
    by_cases hover : total + c.length > maxSize
    · rw [if_pos hover]
      simp only [List.map_cons, List.sum_cons]
      constructor
      · intro _
        omega
      · intro _
        trivial
    · rw [if_neg hover]
      rw [ih (written ++ c) (by omega)]
      simp only [List.map_cons, List.sum_cons]
      omega

theorem writeChunks_ok_of_le {maxSize : ℕ} {chunks : List (List ℕ)}
    (h : (chunks.map List.length).sum ≤ maxSize) :
    ∃ content, writeChunks maxSize chunks 0 [] = some content := by
  cases hw : writeChunks maxSize chunks 0 [] with
  | some content => exact ⟨content, rfl⟩
  | none =>
    rw [writeChunks_eq_none_iff chunks [] (Nat.zero_le _)] at hw
    omega

/-- `savePdfWithModeAux` with the file already uploaded always finishes
with an `Ok` and the temp file on disk. -/
theorem withModeAux_uploaded_ok (maxSize : ℕ) :
    ∀ (parts : List Part) (u : UploadedFile) (mode engine : Option String),
      ∃ r, savePdfWithModeAux maxSize parts (some u) mode engine = (.ok r, true) := by
  intro parts
  induction parts with
  | nil =>
    intro u mode engine
    exact ⟨⟨u.original_name, u.content, mode, engine⟩, rfl⟩
  | cons p rest ih =>
    intro u mode engine
    unfold savePdfWithModeAux
    cases hn : p.name with
    | none => exact ih u mode engine
    | some n =>
      by_cases hfile : n = "file"
      · simp only [hfile, if_pos, Option.isSome_some, if_true]
        exact ih u mode engine
      · by_cases hmode : n = "mode"
        · simp only [hfile, hmode, if_false, if_pos, if_true]
          exact ih u _ engine
        · by_cases hengine : n = "engine"
          · simp only [hfile, hmode, hengine, if_false, if_pos, if_true]
            exact ih u mode _
          · simp only [hfile, hmode, hengine, if_false]
            exact ih u mode engine

/-- C5 counterexample: a `file` part totaling exactly `max_size_bytes`
(4 bytes against a 4-byte budget) whose filename `notes.txt` fails the
PDF gate is rejected with `UnsupportedFileType`, not accepted as the
claim states. -/
theorem c5_counterexample :
    (save_pdf_from_multipart
        [⟨some "file", some "notes.txt", none, [[7, 7, 7, 7]], ""⟩] 4).1 =
      .error .UnsupportedFileType ∧
    (([[7, 7, 7, 7]] : List (List ℕ)).map List.length).sum = 4 := by
  constructor
  · rfl
  · decide

/-- C5 amended: for every multipart stream whose first `file` part
passes the PDF gate, a chunk total of exactly `max_size_bytes` succeeds
in both sink functions, and a total exceeding the budget fails with
`FileTooLarge` with the partial temp file deleted. -/
theorem c5_upload_size_boundary (pre post : List Part) (fp : Part) (maxSize : ℕ)
    (hpre : ∀ q ∈ pre, q.name ≠ some "file")
    (hfp : fp.name = some "file")
    (hpdf : isPdfUpload fp.filename fp.contentType = true) :
    ((fp.chunks.map List.length).sum = maxSize →
      (∃ f, (save_pdf_from_multipart (pre ++ fp :: post) maxSize).1 = .ok f) ∧
      (∃ r, (save_pdf_with_mode_from_multipart (pre ++ fp :: post) maxSize).1 = .ok r)) ∧
    (maxSize + 1 ≤ (fp.chunks.map List.length).sum →
      save_pdf_from_multipart (pre ++ fp :: post) maxSize = (.error .FileTooLarge, false) ∧
      save_pdf_with_mode_from_multipart (pre ++ fp :: post) maxSize =
        (.error .FileTooLarge, false)) := by
  have key : ∀ (pre : List Part) (mode engine : Option String),
      (∀ q ∈ pre, q.name ≠ some "file") →
      ((fp.chunks.map List.length).sum = maxSize →
        (∃ f, (save_pdf_from_multipart (pre ++ fp :: post) maxSize).1 = .ok f) ∧
        (∃ r, (savePdfWithModeAux maxSize (pre ++ fp :: post) none mode engine).1
            = .ok r)) ∧
      (maxSize + 1 ≤ (fp.chunks.map List.length).sum →
        save_pdf_from_multipart (pre ++ fp :: post) maxSize
            = (.error .FileTooLarge, false) ∧
        savePdfWithModeAux maxSize (pre ++ fp :: post) none mode engine =
          (.error .FileTooLarge, false)) := by
    intro pre
    induction pre with
    | nil =>
      intro mode engine _
      rw [List.nil_append]
      constructor
      · intro hsum
        obtain ⟨content, hcontent⟩ := writeChunks_ok_of_le (le_of_eq hsum)
        constructor
        · exact ⟨⟨uploadOriginalName fp.filename, content⟩,
            by simp [save_pdf_from_multipart, hfp, hpdf, hcontent]⟩
        · obtain ⟨r, hr⟩ := withModeAux_uploaded_ok maxSize post
            ⟨uploadOriginalName fp.filename, content⟩ mode engine
          exact ⟨r, by simp [savePdfWithModeAux, hfp, hpdf, hcontent, hr]⟩
      · intro hover
        have hnone : writeChunks maxSize fp.chunks 0 [] = none := by
          rw [writeChunks_eq_none_iff fp.chunks [] (Nat.zero_le _)]
          omega
        constructor
        · simp [save_pdf_from_multipart, hfp, hpdf, hnone]
        · simp [savePdfWithModeAux, hfp, hpdf, hnone]
    | cons q rest ih =>
      intro mode engine hq
      have hqname : q.name ≠ some "file" := hq q (List.mem_cons_self q rest)
      have hrest : ∀ p ∈ rest, p.name ≠ some "file" :=
        fun p hp => hq p (List.mem_cons_of_mem q hp)
      rw [List.cons_append]
      have e1 : save_pdf_from_multipart (q :: (rest ++ fp :: post)) maxSize =
          save_pdf_from_multipart (rest ++ fp :: post) maxSize := by
        simp [save_pdf_from_multipart, hqname]
      cases hn : q.name with
      | none =>
        have e2 : savePdfWithModeAux maxSize (q :: (rest ++ fp :: post)) none mode engine
            = savePdfWithModeAux maxSize (rest ++ fp :: post) none mode engine := by
          simp [savePdfWithModeAux, hn]
        rw [e1, e2]
        exact ih mode engine hrest
      | some n =>
        have hnfile : ¬ n = "file" := by
          intro hcontra
          exact hqname (by rw [hn, hcontra])
        by_cases hm : n = "mode"
        · have e2 : savePdfWithModeAux maxSize (q :: (rest ++ fp :: post)) none mode engine
              = savePdfWithModeAux maxSize (rest ++ fp :: post) none
                (if ¬ (strTrim q.text).toList.isEmpty then some (strTrim q.text)
                  else mode) engine := by
            simp [savePdfWithModeAux, hn, hnfile, hm]
          rw [e1, e2]
          exact ih _ engine hrest
        · by_cases he : n = "engine"
          · have e2 : savePdfWithModeAux maxSize (q :: (rest ++ fp :: post)) none mode engine
                = savePdfWithModeAux maxSize (rest ++ fp :: post) none mode
                  (if ¬ (strTrim q.text).toList.isEmpty then some (strTrim q.text)
                    else engine) := by
              simp [savePdfWithModeAux, hn, hnfile, hm, he]
            rw [e1, e2]
            exact ih mode _ hrest
          · have e2 : savePdfWithModeAux maxSize (q :: (rest ++ fp :: post)) none mode engine
                = savePdfWithModeAux maxSize (rest ++ fp :: post) none mode engine := by
              simp [savePdfWithModeAux, hn, hnfile, hm, he]
            rw [e1, e2]
            exact ih mode engine hrest
  exact key pre none none hpre

/-- C5 witness: a 4-byte PDF upload against a 4-byte budget succeeds in
both sinks; against a 3-byte budget both fail `FileTooLarge` leaving no
file. -/
theorem c5_witness :
    ((∃ f, (save_pdf_from_multipart
        [⟨some "file", some "a.pdf", none, [[7, 7], [7, 7]], ""⟩] 4).1 = .ok f) ∧
      (∃ r, (save_pdf_with_mode_from_multipart
        [⟨some "file", some "a.pdf", none, [[7, 7], [7, 7]], ""⟩] 4).1 = .ok r)) ∧
    (save_pdf_from_multipart
        [⟨some "file", some "a.pdf", none, [[7, 7], [7, 7]], ""⟩] 3 =
      (.error .FileTooLarge, false) ∧
    save_pdf_with_mode_from_multipart
        [⟨some "file", some "a.pdf", none, [[7, 7], [7, 7]], ""⟩] 3 =
      (.error .FileTooLarge, false)) := by
  constructor
  · exact (c5_upload_size_boundary [] [] ⟨some "file", some "a.pdf", none, [[7, 7], [7, 7]], ""⟩ 4
      (by simp) rfl (by decide)).1 (by decide)
  · exact (c5_upload_size_boundary [] [] ⟨some "file", some "a.pdf", none, [[7, 7], [7, 7]], ""⟩ 3
      (by simp) rfl (by decide)).2 (by decide)

/-! ## C9 — default PDF acceptance for anonymous `file` parts -/

theorem unsupported_part_shape {filename contentType : Option String}
    (h : isPdfUpload filename contentType = false) :
    ∃ f, filename = some f ∧ strEndsWith (strAsciiLower f) ".pdf" = false ∧
      contentType ≠ some "application/pdf" := by
  unfold isPdfUpload at h
  rw [Bool.or_eq_false_iff] at h
  obtain ⟨h1, h2⟩ := h
  cases filename with
  | none => exact absurd h2 (by decide)
  | some f =>
    refine ⟨f, rfl, ?_, by simpa using h1⟩
    simpa [uploadOriginalName] using h2

theorem fn1_unsupported_shape :
    ∀ (parts : List Part) (maxSize : ℕ),
      (save_pdf_from_multipart parts maxSize).1 = .error .UnsupportedFileType →
      ∃ pre fp post, parts = pre ++ fp :: post ∧
        (∀ q ∈ pre, q.name ≠ some "file") ∧ fp.name = some "file" ∧
        ∃ f, fp.filename = some f ∧ strEndsWith (strAsciiLower f) ".pdf" = false ∧
          fp.contentType ≠ some "application/pdf" := by
  intro parts
  induction parts with
  | nil =>
    intro maxSize h
    simp [save_pdf_from_multipart] at h
  | cons p rest ih =>
    intro maxSize h
    by_cases hpn : p.name = some "file"
    · by_cases hpdf : isPdfUpload p.filename p.contentType = true
      · rcases hw : writeChunks maxSize p.chunks 0 [] with _ | content
        · simp [save_pdf_from_multipart, hpn, hpdf, hw] at h
        · simp [save_pdf_from_multipart, hpn, hpdf, hw] at h
      · exact ⟨[], p, rest, rfl, by simp, hpn,
          unsupported_part_shape (Bool.eq_false_iff.mpr hpdf)⟩
    · have h' : (save_pdf_from_multipart rest maxSize).1 = .error .UnsupportedFileType := by
        simpa [save_pdf_from_multipart, hpn] using h
      obtain ⟨pre, fp, post, hparts, hprename, hfpname, hshape⟩ := ih maxSize h'
      refine ⟨p :: pre, fp, post, by rw [hparts, List.cons_append], ?_, hfpname, hshape⟩
      intro q hq
      rcases List.mem_cons.mp hq with rfl | hq
      · exact hpn
      · exact hprename q hq

theorem fn2_unsupported_shape_aux (maxSize : ℕ) :
    ∀ (parts : List Part) (mode engine : Option String),
      (savePdfWithModeAux maxSize parts none mode engine).1 =
        .error .UnsupportedFileType →
      ∃ pre fp post, parts = pre ++ fp :: post ∧
        (∀ q ∈ pre, q.name ≠ some "file") ∧ fp.name = some "file" ∧
        ∃ f, fp.filename = some f ∧ strEndsWith (strAsciiLower f) ".pdf" = false ∧
          fp.contentType ≠ some "application/pdf" := by
  intro parts
  induction parts with
  | nil =>
    intro mode engine h
    simp [savePdfWithModeAux] at h
  | cons p rest ih =>
    intro mode engine h
    have prepend : ∀ (mode' engine' : Option String), p.name ≠ some "file" →
        (savePdfWithModeAux maxSize rest none mode' engine').1 =
          .error .UnsupportedFileType →
        ∃ pre fp post, p :: rest = pre ++ fp :: post ∧
          (∀ q ∈ pre, q.name ≠ some "file") ∧ fp.name = some "file" ∧
          ∃ f, fp.filename = some f ∧ strEndsWith (strAsciiLower f) ".pdf" = false ∧
            fp.contentType ≠ some "application/pdf" := by
      intro mode' engine' hpn h'
      obtain ⟨pre, fp, post, hparts, hprename, hfpname, hshape⟩ := ih mode' engine' h'
      refine ⟨p :: pre, fp, post, by rw [hparts, List.cons_append], ?_, hfpname, hshape⟩
      intro q hq
      rcases List.mem_cons.mp hq with rfl | hq
      · exact hpn
      · exact hprename q hq
    cases hn : p.name with
    | none =>
      have h' : (savePdfWithModeAux maxSize rest none mode engine).1 =
          .error .UnsupportedFileType := by
        simpa [savePdfWithModeAux, hn] using h
      exact prepend mode engine (by rw [hn]; exact Option.noConfusion) h'
    | some n =>
      by_cases hfile : n = "file"
      · subst hfile
        by_cases hpdf : isPdfUpload p.filename p.contentType = true
        · rcases hw : writeChunks maxSize p.chunks 0 [] with _ | content
          · simp [savePdfWithModeAux, hn, hpdf, hw] at h
          · obtain ⟨r, hr⟩ := withModeAux_uploaded_ok maxSize rest
              ⟨uploadOriginalName p.filename, content⟩ mode engine
            rw [show (savePdfWithModeAux maxSize (p :: rest) none mode engine).1 =
                (savePdfWithModeAux maxSize rest
                  (some ⟨uploadOriginalName p.filename, content⟩) mode engine).1
              from by simp [savePdfWithModeAux, hn, hpdf, hw], hr] at h
            simp at h
        · exact ⟨[], p, rest, rfl, by simp, hn,
            unsupported_part_shape (Bool.eq_false_iff.mpr hpdf)⟩
      · have hpn : p.name ≠ some "file" := by
          rw [hn]
          simp [hfile]
        by_cases hm : n = "mode"
        · have h' : (savePdfWithModeAux maxSize rest none
              (if ¬ (strTrim p.text).toList.isEmpty then some (strTrim p.text) else mode)
              engine).1 = .error .UnsupportedFileType := by
            simpa [savePdfWithModeAux, hn, hfile, hm] using h
          exact prepend _ engine hpn h'
        · by_cases he : n = "engine"
          · have h' : (savePdfWithModeAux maxSize rest none mode
                (if ¬ (strTrim p.text).toList.isEmpty then some (strTrim p.text)
                  else engine)).1 = .error .UnsupportedFileType := by
              simpa [savePdfWithModeAux, hn, hfile, hm, he] using h
            exact prepend mode _ hpn h'
          · have h' : (savePdfWithModeAux maxSize rest none mode engine).1 =
                .error .UnsupportedFileType := by
              simpa [savePdfWithModeAux, hn, hfile, hm, he] using h
            exact prepend mode engine hpn h'

/-- C9. A `file` part carrying neither filename nor content type is
accepted as a PDF (the defaulted name `document.pdf` passes the suffix
test), and both sink functions return `UnsupportedFileType` only when
the first `file` part carries a filename that does not end in `.pdf`
(case-insensitively) and no `application/pdf` content type. -/
theorem c9_anonymous_part_accepted :
    isPdfUpload none none = true ∧
    (∀ (parts : List Part) (maxSize : ℕ),
      (save_pdf_from_multipart parts maxSize).1 = .error .UnsupportedFileType →
      ∃ pre fp post, parts = pre ++ fp :: post ∧
        (∀ q ∈ pre, q.name ≠ some "file") ∧ fp.name = some "file" ∧
        ∃ f, fp.filename = some f ∧ strEndsWith (strAsciiLower f) ".pdf" = false ∧
          fp.contentType ≠ some "application/pdf") ∧
    (∀ (parts : List Part) (maxSize : ℕ),
      (save_pdf_with_mode_from_multipart parts maxSize).1 =
          .error .UnsupportedFileType →
      ∃ pre fp post, parts = pre ++ fp :: post ∧
        (∀ q ∈ pre, q.name ≠ some "file") ∧ fp.name = some "file" ∧
        ∃ f, fp.filename = some f ∧ strEndsWith (strAsciiLower f) ".pdf" = false ∧
          fp.contentType ≠ some "application/pdf") :=
  ⟨by decide, fn1_unsupported_shape,
    fun parts maxSize h => fn2_unsupported_shape_aux maxSize parts none none h⟩

/-! ## C6 — sliding-window rate limiting -/

/-- On an ascending bucket the front-popping loop removes exactly the
timestamps below the cutoff. -/
theorem sorted_dropWhile_lt (c : ℕ) :
    ∀ {l : List ℕ}, l.Pairwise (· ≤ ·) →
      l.dropWhile (fun t => t < c) = l.filter (fun t => c ≤ t) := by
  intro l
  induction l with
  | nil => intro _; rfl
  | cons x xs ih =>
    intro hs
    rw [List.pairwise_cons] at hs
    obtain ⟨hx, hs'⟩ := hs
    by_cases hxc : x < c
    · rw [List.dropWhile_cons_of_pos (by simpa using hxc),
        List.filter_cons_of_neg (by simp; omega)]
      exact ih hs'
    · rw [List.dropWhile_cons_of_neg (by simpa using hxc),
        List.filter_cons_of_pos (by simp; omega)]
      congr 1
      exact (List.filter_eq_self.mpr fun a ha => by
        have := hx a ha
        simp
        omega).symm

theorem filter_le_filter_le {c c' : ℕ} (h : c ≤ c') (P : List ℕ) :
    (P.filter (fun x => c ≤ x)).filter (fun x => c' ≤ x) =
      P.filter (fun x => c' ≤ x) := by
  rw [List.filter_filter]
  apply List.filter_congr
  intro x _
  by_cases hx : c' ≤ x
  · simp [hx, le_trans h hx]
  · simp [hx]

/-- Admissions are a subsequence of the call times. -/
theorem rateLimiterRun_sublist (W maxReq : ℕ) :
    ∀ (times bucket : List ℕ), List.Sublist (rateLimiterRun W maxReq bucket times) times := by
  intro times
  induction times with
  | nil => intro bucket; simp [rateLimiterRun]
  | cons now rest ih =>
    intro bucket
    rcases hcc : check_and_count W maxReq now bucket with ⟨ok, b⟩
    cases ok
    · have hrun : rateLimiterRun W maxReq bucket (now :: rest) =
          rateLimiterRun W maxReq b rest := by
        conv_lhs => unfold rateLimiterRun
        rw [hcc]
      rw [hrun]
      exact (ih b).cons now
    · have hrun : rateLimiterRun W maxReq bucket (now :: rest) =
          now :: rateLimiterRun W maxReq b rest := by
        conv_lhs => unfold rateLimiterRun
        rw [hcc]
      rw [hrun]
      exact (ih b).cons₂ now

/-- Key per-admission bound, generalized over a history `P` of earlier
admissions whose `c`-recent part is the current bucket: at every
admission `t` of the run, at most `maxReq` admissions (history and run
together, `t` included) lie in `[t - W, t]`. -/
theorem rl_run_prefix_bound (W maxReq : ℕ) :
    ∀ (times P : List ℕ) (c : ℕ),
      P.Pairwise (· ≤ ·) →
      times.Pairwise (· ≤ ·) →
      (∀ t ∈ times, W ≤ t) →
      (∀ x ∈ P, ∀ t ∈ times, x ≤ t) →
      (∀ t ∈ times, c + W ≤ t) →
      ∀ (A₁ : List ℕ) (t : ℕ) (A₂ : List ℕ),
        rateLimiterRun W maxReq (P.filter (fun x => c ≤ x)) times = A₁ ++ t :: A₂ →
        ((P ++ A₁ ++ [t]).filter (fun x => t - W ≤ x)).length ≤ maxReq := by
  intro times
  induction times with
  | nil =>
    intro P c _ _ _ _ _ A₁ t A₂ h
    exact absurd h (by simp [rateLimiterRun])
  | cons now rest ih =>
    intro P c hP hts hW hPt hc A₁ t A₂ h
    have hWnow : W ≤ now := hW now (List.mem_cons_self _ _)
    have hnowrest : ∀ u ∈ rest, now ≤ u := (List.pairwise_cons.mp hts).1
    have hts' : rest.Pairwise (· ≤ ·) := (List.pairwise_cons.mp hts).2
    have hW' : ∀ u ∈ rest, W ≤ u := fun u hu => hW u (List.mem_cons_of_mem _ hu)
    have hcut : rlCutoff W now = now - W := by simp [rlCutoff, hWnow]
    have hccle : c ≤ now - W := by
      have := hc now (List.mem_cons_self _ _)
      omega
    have hPfsorted : (P.filter (fun x => c ≤ x)).Pairwise (· ≤ ·) :=
      List.Pairwise.sublist (List.filter_sublist _) hP
    have hpruned : (P.filter (fun x => c ≤ x)).dropWhile (fun u => u < rlCutoff W now)
        = P.filter (fun x => now - W ≤ x) := by
      simp only [hcut]
      rw [sorted_dropWhile_lt _ hPfsorted]
      exact filter_le_filter_le hccle P
    unfold rateLimiterRun check_and_count at h
    rw [hpruned] at h
    have hc' : ∀ u ∈ rest, (now - W) + W ≤ u := by
      intro u hu
      have := hnowrest u hu
      omega
    by_cases hfull : maxReq ≤ (P.filter (fun x => now - W ≤ x)).length
    · rw [if_pos hfull] at h
      dsimp only at h
      exact ih P (now - W) hP hts' hW'
        (fun x hx u hu => hPt x hx u (List.mem_cons_of_mem _ hu)) hc' A₁ t A₂ h
    · rw [if_neg hfull] at h
      dsimp only at h
      have hPnow : ∀ x ∈ P, x ≤ now := fun x hx => hPt x hx now (List.mem_cons_self _ _)
      have hP' : (P ++ [now]).Pairwise (· ≤ ·) := by
        rw [List.pairwise_append]
        refine ⟨hP, List.pairwise_singleton _ _, fun x hx y hy => ?_⟩
        rw [List.mem_singleton] at hy
        subst hy
        exact hPnow x hx
      have hfilterapp : P.filter (fun x => now - W ≤ x) ++ [now]
          = (P ++ [now]).filter (fun x => now - W ≤ x) := by
        rw [List.filter_append]
        congr 1
        simp [Nat.sub_le]
      cases A₁ with
      | nil =>
        rw [List.nil_append] at h
        injection h with h1 h2
        subst h1
        have hgoal : ((P ++ [] ++ [now]).filter (fun x => now - W ≤ x)).length
            = (P.filter (fun x => now - W ≤ x)).length + 1 := by
          rw [List.append_nil, List.filter_append]
          simp [Nat.sub_le]
        rw [hgoal]
        omega
      | cons a A₁' =>
        rw [List.cons_append] at h
        injection h with h1 h2
        subst h1
        rw [hfilterapp] at h2
        have hPt' : ∀ x ∈ P ++ [now], ∀ u ∈ rest, x ≤ u := by
          intro x hx u hu
          rcases List.mem_append.mp hx with hx | hx
          · exact hPt x hx u (List.mem_cons_of_mem _ hu)
          · rw [List.mem_singleton] at hx
            subst hx
            exact hnowrest u hu
        have := ih (P ++ [now]) (now - W) hP' hts' hW' hPt' hc' A₁' t A₂ h2
        simpa [List.append_assoc] using this

/-- Interval bound from the per-admission bound, for sorted admission
lists. -/
theorem rl_interval_bound (W maxReq : ℕ) :
    ∀ (A : List ℕ), A.Pairwise (· ≤ ·) →
      (∀ A₁ t A₂, A = A₁ ++ t :: A₂ →
        ((A₁ ++ [t]).filter (fun x => t - W ≤ x)).length ≤ maxReq) →
      ∀ a, (A.filter (fun x => a ≤ x ∧ x ≤ a + W)).length ≤ maxReq := by
  intro A
  induction A using List.reverseRecOn with
  | nil => intro _ _ a; simp
  | append_singleton A' t ih =>
    intro hs hdec a
    have hs' : A'.Pairwise (· ≤ ·) :=
      List.Pairwise.sublist (List.sublist_append_left _ _) hs
    have hxle : ∀ x ∈ A', x ≤ t := by
      rw [List.pairwise_append] at hs
      intro x hx
      exact hs.2.2 x hx t (List.mem_singleton_self _)
    have hdec' : ∀ A₁ u A₂, A' = A₁ ++ u :: A₂ →
        ((A₁ ++ [u]).filter (fun x => u - W ≤ x)).length ≤ maxReq := by
      intro A₁ u A₂ hA'
      exact hdec A₁ u (A₂ ++ [t]) (by rw [hA']; simp)
    by_cases hta : a ≤ t ∧ t ≤ a + W
    · have hlast := hdec A' t [] rfl
      have hmono : ∀ x ∈ A' ++ [t],
          decide (a ≤ x ∧ x ≤ a + W) = true → decide (t - W ≤ x) = true := by
        intro x _ hx
        rw [decide_eq_true_eq] at hx ⊢
        omega
      calc ((A' ++ [t]).filter (fun x => a ≤ x ∧ x ≤ a + W)).length
          = (A' ++ [t]).countP (fun x => decide (a ≤ x ∧ x ≤ a + W)) :=
            (List.countP_eq_length_filter _ (A' ++ [t])).symm
        _ ≤ (A' ++ [t]).countP (fun x => decide (t - W ≤ x)) :=
            List.countP_mono_left hmono
        _ = ((A' ++ [t]).filter (fun x => t - W ≤ x)).length :=
            List.countP_eq_length_filter _ (A' ++ [t])
        _ ≤ maxReq := hlast
    · rcases Nat.lt_or_ge (a + W) t with hgt | hge
      · rw [List.filter_append]
        have hsingle : [t].filter (fun x => a ≤ x ∧ x ≤ a + W) = [] := by
          simp
          omega
        rw [hsingle, List.append_nil]
        exact ih hs' hdec' a
      · have hta' : t < a := by
          rcases Nat.lt_or_ge t a with h' | h'
          · exact h'
          · exact absurd ⟨h', hge⟩ hta
        have hnil : (A' ++ [t]).filter (fun x => a ≤ x ∧ x ≤ a + W) = [] := by
          rw [List.filter_eq_nil_iff]
          intro x hx
          rcases List.mem_append.mp hx with hx | hx
          · have := hxle x hx
            simp only [decide_eq_true_eq, not_and]
            intro h1
            omega
          · rw [List.mem_singleton] at hx
            subst hx
            simp only [decide_eq_true_eq, not_and]
            intro h1
            omega
        rw [hnil]
        simp

/-- C6 counterexample: `checked_sub` underflow.  With window 10 and
limit 1, two calls at times 3 and 5 (both within 10 of the clock's
minimum value) are both admitted: at time 5 the cutoff is `now`
itself, so the admission at 3 is dropped and not counted, and the
contiguous interval `[0, 10]` holds 2 > 1 admissions. -/
theorem c6_counterexample :
    rateLimiterRun 10 1 [] [3, 5] = [3, 5] ∧
    ¬ ((rateLimiterRun 10 1 [] [3, 5]).filter
        (fun x => 0 ≤ x ∧ x ≤ 0 + 10)).length ≤ 1 := by
  decide

/-- C6 amended: provided no call underflows the cutoff subtraction
(every `now` is at least `W` past the clock's minimum value; call times
are monotone, as `Instant::now` is), each call prunes exactly the
timestamps older than `now − W` and admits iff fewer than
`max_requests` remain, and consequently every contiguous interval
`[a, a + W]` contains at most `max_requests` admissions. -/
theorem c6_sliding_window_bound (W maxReq : ℕ) (times : List ℕ)
    (hsorted : times.Pairwise (· ≤ ·)) (hW : ∀ t ∈ times, W ≤ t) :
    (∀ (bucket : List ℕ) (now : ℕ), W ≤ now → bucket.Pairwise (· ≤ ·) →
      check_and_count W maxReq now bucket =
        if maxReq ≤ (bucket.filter (fun x => now - W ≤ x)).length
        then (false, bucket.filter (fun x => now - W ≤ x))
        else (true, bucket.filter (fun x => now - W ≤ x) ++ [now])) ∧
    ∀ a, ((rateLimiterRun W maxReq [] times).filter
        (fun x => a ≤ x ∧ x ≤ a + W)).length ≤ maxReq := by
  constructor
  · intro bucket now hWnow hbs
    unfold check_and_count
    have hcut : rlCutoff W now = now - W := by simp [rlCutoff, hWnow]
    simp only [hcut, sorted_dropWhile_lt _ hbs]
  · intro a
    refine rl_interval_bound W maxReq _
      (List.Pairwise.sublist (rateLimiterRun_sublist W maxReq times []) hsorted)
      ?_ a
    intro A₁ t A₂ hdecomp
    have h := rl_run_prefix_bound W maxReq times [] 0 (List.Pairwise.nil) hsorted hW
      (by simp) (fun u hu => by have := hW u hu; omega) A₁ t A₂ hdecomp
    simpa using h

/-- C6 witness for the amended statement: window 10, limit 1, calls at
12, 13 and 25; the interval `[12, 22]` holds one admission. -/
theorem c6_witness :
    ((rateLimiterRun 10 1 [] [12, 13, 25]).filter
        (fun x => 12 ≤ x ∧ x ≤ 12 + 10)).length ≤ 1 :=
  (c6_sliding_window_bound 10 1 [12, 13, 25] (by decide) (by decide)).2 12

/-! ## C8 — inkcov line parsing -/

theorem lastFourMatch_eq_lastHit (pf : String → Option α) (tokens : List String) :
    lastFourMatch pf tokens = lastHit (fourAt pf tokens) (tokens.length - 3) := by
  unfold lastFourMatch
  generalize tokens.length - 3 = n
  induction n with
  | zero => rfl
  | succ n ih =>
    rw [List.range_succ, List.foldl_append, ih]
    simp only [List.foldl_cons, List.foldl_nil]
    cases h4 : fourAt pf tokens n with
    | none => simp [lastHit, h4]
    | some v =>
      obtain ⟨c, m, y, k⟩ := v
      simp [lastHit, h4]

theorem lastHit_eq_some_iff {f : ℕ → Option β} {i : ℕ} {v : β} :
    ∀ {n}, lastHit f n = some (i, v) ↔
      i < n ∧ f i = some v ∧ ∀ j, i < j → j < n → f j = none := by
  intro n
  induction n with
  | zero => simp [lastHit]
  | succ n ih =>
    unfold lastHit
    cases hn : f n with
    | some w =>
      simp only
      constructor
      · intro h
        rw [Option.some_inj] at h
        cases h
        exact ⟨by omega, hn, fun j hj1 hj2 => absurd hj2 (by omega)⟩
      · rintro ⟨hi, hfi, hlater⟩
        by_cases hin : i = n
        · subst hin
          rw [hfi] at hn
          rw [Option.some_inj] at hn
          rw [hn]
        · exfalso
          have := hlater n (by omega) (Nat.lt_succ_self n)
          rw [this] at hn
          cases hn
    | none =>
      simp only
      rw [ih]
      constructor
      · rintro ⟨hi, hfi, hlater⟩
        refine ⟨by omega, hfi, fun j hj1 hj2 => ?_⟩
        by_cases hjn : j = n
        · rw [hjn]; exact hn
        · exact hlater j hj1 (by omega)
      · rintro ⟨hi, hfi, hlater⟩
        have hin : i ≠ n := by
          intro hcontra
          rw [hcontra, hn] at hfi
          cases hfi
        exact ⟨by omega, hfi, fun j hj1 hj2 => hlater j hj1 (by omega)⟩

theorem lastHit_eq_none_iff {f : ℕ → Option β} :
    ∀ {n}, lastHit f n = none ↔ ∀ j, j < n → f j = none := by
  intro n
  induction n with
  | zero => simp [lastHit]
  | succ n ih =>
    unfold lastHit
    cases hn : f n with
    | some w =>
      simp only
      constructor
      · intro h; cases h
      · intro h
        have := h n (Nat.lt_succ_self n)
        rw [this] at hn
        cases hn
    | none =>
      simp only
      rw [ih]
      constructor
      · intro h j hj1
        by_cases hjn : j = n
        · rw [hjn]; exact hn
        · exact h j (by omega)
      · intro h j hj1
        exact h j (by omega)

theorem fourAt_le_length {pf : String → Option α} {tokens : List String} {i : ℕ}
    {c m y k : α} (h : fourAt pf tokens i = some (c, m, y, k)) :
    i + 4 ≤ tokens.length := by
  unfold fourAt at h
  split at h
  · next a b c' d heq =>
    have hlen : ((tokens.drop i).take 4).length = 4 := by rw [heq]; rfl
    simp only [List.length_take, List.length_drop] at hlen
    omega
  · cases h

theorem fourAt_none_of_gt {pf : String → Option α} {tokens : List String} {i : ℕ}
    (h : tokens.length < i + 4) : fourAt pf tokens i = none := by
  unfold fourAt
  split
  · next a b c d heq =>
    exfalso
    have hlen : ((tokens.drop i).take 4).length = 4 := by rw [heq]; rfl
    simp only [List.length_take, List.length_drop] at hlen
    omega
  · rfl

/-- C8. First conjunct: for every line and every scalar parser `pf`,
`parse_inkcov_line` succeeds with `(c, m, y, k, ink)` exactly when some
index `i` starts the *last* run of four tokens that all parse, the four
values are those parses, and `ink` joins the tokens after the run with
single spaces.  Second and third conjuncts: the dot and comma example
lines both parse to `(0.10, 0.20, 0.30, 0.40, "CMYK")`.  Last conjunct:
a token with a comma and no dot is parsed by replacing each comma with a
dot. -/
theorem c8_parse_inkcov_line_characterization :
    (∀ {α : Type} (pf : String → Option α) (line : String) (c m y k : α) (ink : String),
      parse_inkcov_line pf line = some (c, m, y, k, ink) ↔
        ∃ i, fourAt pf (splitWs line) i = some (c, m, y, k) ∧
          (∀ j, i < j → fourAt pf (splitWs line) j = none) ∧
          ink = joinSpace ((splitWs line).drop (i + 4))) ∧
    parse_inkcov_line parse_f64_token "0.10 0.20 0.30 0.40 CMYK" =
      some (0.10, 0.20, 0.30, 0.40, "CMYK") ∧
    parse_inkcov_line parse_f64_token "0,10 0,20 0,30 0,40 CMYK" =
      some (0.10, 0.20, 0.30, 0.40, "CMYK") ∧
    (∀ t : String, parseDecimal t = none → t.toList.contains ',' = true →
      t.toList.contains '.' = false →
      parse_f64_token t =
        parseDecimal (String.mk (t.toList.map fun ch => if ch = ',' then '.' else ch))) := by
  refine ⟨?_, ?_, ?_, ?_⟩
  · intro α pf line c m y k ink
    unfold parse_inkcov_line
    by_cases hlen : (splitWs line).length < 4
    · rw [if_pos hlen]
      constructor
      · intro h; cases h
      · rintro ⟨i, hfour, -, -⟩
        exact absurd (fourAt_le_length hfour) (by omega)
    · rw [if_neg hlen]
      rw [lastFourMatch_eq_lastHit]
      cases hlm : lastHit (fourAt pf (splitWs line)) ((splitWs line).length - 3) with
      | none =>
        rw [lastHit_eq_none_iff] at hlm
        simp only
        constructor
        · intro h; cases h
        · rintro ⟨i, hfour, -, -⟩
          have hle := fourAt_le_length hfour
          have := hlm i (by omega)
          rw [this] at hfour
          cases hfour
      | some p =>
        obtain ⟨i0, c0, m0, y0, k0⟩ := p
        rw [lastHit_eq_some_iff] at hlm
        obtain ⟨hi0n, hfour0, hlater0⟩ := hlm
        have hlater0' : ∀ j, i0 < j → fourAt pf (splitWs line) j = none := by
          intro j hj
          by_cases hjn : j < (splitWs line).length - 3
          · exact hlater0 j hj hjn
          · exact fourAt_none_of_gt (by omega)
        have hle0 := fourAt_le_length hfour0
        have hink0 : (if i0 + 4 < (splitWs line).length
              then joinSpace ((splitWs line).drop (i0 + 4)) else "") =
            joinSpace ((splitWs line).drop (i0 + 4)) := by
          by_cases hlt : i0 + 4 < (splitWs line).length
          · rw [if_pos hlt]
          · rw [if_neg hlt]
            rw [List.drop_eq_nil_of_le (by omega)]
            rfl
        simp only
        constructor
        · intro h
          rw [Option.some_inj] at h
          cases h
          exact ⟨i0, hfour0, hlater0', hink0⟩
        · rintro ⟨i, hfour, hlater, hink⟩
          have hii0 : i = i0 := by
            by_contra hne
            rcases Nat.lt_or_ge i i0 with hlt | hge
            · have := hlater i0 hlt
              rw [this] at hfour0
              cases hfour0
            · have := hlater0' i (by omega)
              rw [this] at hfour
              cases hfour
          subst hii0
          have h40 : (c0, m0, y0, k0) = (c, m, y, k) :=
            Option.some_inj.mp (hfour0.symm.trans hfour)
          cases h40
          rw [hink, hink0]
  · have hstep : parse_inkcov_line parse_f64_token "0.10 0.20 0.30 0.40 CMYK" =
        some ((digitsToNat ['0'] : ℚ) + (digitsToNat ['1', '0'] : ℚ) / (10 : ℚ) ^ 2,
          (digitsToNat ['0'] : ℚ) + (digitsToNat ['2', '0'] : ℚ) / (10 : ℚ) ^ 2,
          (digitsToNat ['0'] : ℚ) + (digitsToNat ['3', '0'] : ℚ) / (10 : ℚ) ^ 2,
          (digitsToNat ['0'] : ℚ) + (digitsToNat ['4', '0'] : ℚ) / (10 : ℚ) ^ 2,
          "CMYK") := rfl
    rw [hstep,
      show digitsToNat ['0'] = 0 from by decide,
      show digitsToNat ['1', '0'] = 10 from by decide,
      show digitsToNat ['2', '0'] = 20 from by decide,
      show digitsToNat ['3', '0'] = 30 from by decide,
      show digitsToNat ['4', '0'] = 40 from by decide]
    norm_num
  · have hstep : parse_inkcov_line parse_f64_token "0,10 0,20 0,30 0,40 CMYK" =
        some ((digitsToNat ['0'] : ℚ) + (digitsToNat ['1', '0'] : ℚ) / (10 : ℚ) ^ 2,
          (digitsToNat ['0'] : ℚ) + (digitsToNat ['2', '0'] : ℚ) / (10 : ℚ) ^ 2,
          (digitsToNat ['0'] : ℚ) + (digitsToNat ['3', '0'] : ℚ) / (10 : ℚ) ^ 2,
          (digitsToNat ['0'] : ℚ) + (digitsToNat ['4', '0'] : ℚ) / (10 : ℚ) ^ 2,
          "CMYK") := rfl
    rw [hstep,
      show digitsToNat ['0'] = 0 from by decide,
      show digitsToNat ['1', '0'] = 10 from by decide,
      show digitsToNat ['2', '0'] = 20 from by decide,
      show digitsToNat ['3', '0'] = 30 from by decide,
      show digitsToNat ['4', '0'] = 40 from by decide]
    norm_num
  · intro t hfail hc hd
    unfold parse_f64_token
    rw [hfail]
    rw [if_pos ⟨by simpa using hc, by simpa using hd⟩]

/-! ## C3 — one color profile per page -/

/-- Page indices of parsed profiles run `1..len` when the accumulator's
already do. -/
theorem parseInkcovAux_pages {pc : ℤ} :
    ∀ (lines : List String) (acc : List ColorProfile),
      acc.map (fun p => p.page) = (List.range acc.length).map (fun n : ℕ => (n : ℤ) + 1) →
      (parseInkcovAux pc lines acc).map (fun p => p.page) =
        (List.range (parseInkcovAux pc lines acc).length).map (fun n : ℕ => (n : ℤ) + 1) := by
  intro lines
  induction lines with
  | nil => intro acc h; exact h
  | cons line rest ih =>
    intro acc h
    unfold parseInkcovAux
    cases hp : parse_inkcov_line parse_f64_token line with
    | none => exact ih acc h
    | some v =>
      obtain ⟨c, m, y, k, ink⟩ := v
      dsimp only
      by_cases hpage : (acc.length : ℤ) + 1 > pc
      · rw [if_pos hpage]
        exact h
      · rw [if_neg hpage]
        refine ih _ ?_
        rw [List.map_append, h, List.length_append, List.length_cons, List.length_nil,
          List.range_succ, List.map_append]
        rfl

/-- The parse loop never produces more than `page_count` profiles. -/
theorem parseInkcovAux_length_le {pc : ℤ} (hpc : 0 ≤ pc) :
    ∀ (lines : List String) (acc : List ColorProfile),
      acc.length ≤ pc.toNat → (parseInkcovAux pc lines acc).length ≤ pc.toNat := by
  intro lines
  induction lines with
  | nil => intro acc h; exact h
  | cons line rest ih =>
    intro acc h
    unfold parseInkcovAux
    cases hp : parse_inkcov_line parse_f64_token line with
    | none => exact ih acc h
    | some v =>
      obtain ⟨c, m, y, k, ink⟩ := v
      dsimp only
      by_cases hpage : (acc.length : ℤ) + 1 > pc
      · rw [if_pos hpage]
        exact h
      · rw [if_neg hpage]
        refine ih _ ?_
        simp only [List.length_append, List.length_cons, List.length_nil]
        omega

theorem padProfilesAux_length :
    ∀ (n : ℕ) (ps : List ColorProfile), (padProfilesAux n ps).length = ps.length + n := by
  intro n
  induction n with
  | zero => intro ps; rfl
  | succ n ih =>
    intro ps
    unfold padProfilesAux
    rw [ih]
    simp only [List.length_append, List.length_cons, List.length_nil]
    omega

theorem padProfilesAux_pages :
    ∀ (n : ℕ) (ps : List ColorProfile),
      ps.map (fun p => p.page) = (List.range ps.length).map (fun n : ℕ => (n : ℤ) + 1) →
      (padProfilesAux n ps).map (fun p => p.page) =
        (List.range (padProfilesAux n ps).length).map (fun n : ℕ => (n : ℤ) + 1) := by
  intro n
  induction n with
  | zero => intro ps h; exact h
  | succ n ih =>
    intro ps h
    unfold padProfilesAux
    refine ih _ ?_
    rw [List.map_append, h, List.length_append, List.length_cons, List.length_nil,
      List.range_succ, List.map_append]
    rfl

theorem padProfilesAux_eq_append :
    ∀ (n : ℕ) (ps : List ColorProfile),
      ∃ tail, padProfilesAux n ps = ps ++ tail ∧
        ∀ p ∈ tail, p.c = 0 ∧ p.m = 0 ∧ p.y = 0 ∧ p.k = 0 ∧ p.ink_type = "" := by
  intro n
  induction n with
  | zero => intro ps; exact ⟨[], (List.append_nil ps).symm, by simp⟩
  | succ n ih =>
    intro ps
    unfold padProfilesAux
    obtain ⟨tail, htail, hzero⟩ := ih (ps ++ [zeroProfile ((ps.length : ℤ) + 1)])
    refine ⟨zeroProfile ((ps.length : ℤ) + 1) :: tail, ?_, ?_⟩
    · rw [htail, List.append_assoc]
      rfl
    · intro p hp
      rcases List.mem_cons.mp hp with rfl | hp
      · exact ⟨rfl, rfl, rfl, rfl, rfl⟩
      · exact hzero p hp

theorem renumbered_pages (ps : List ColorProfile) :
    (ps.enum.map fun p => { p.2 with page := (p.1 : ℤ) + 1 }).map (fun p => p.page) =
      (List.range ps.length).map (fun n : ℕ => (n : ℤ) + 1) := by
  rw [List.map_map]
  have : ((fun p : ColorProfile => p.page) ∘
      fun p : ℕ × ColorProfile => { p.2 with page := (p.1 : ℤ) + 1 }) =
      (fun n : ℕ => (n : ℤ) + 1) ∘ Prod.fst := rfl
  rw [this, ← List.map_map, List.enum_map_fst]

/-- C3. For `page_count = N ≥ 1`, the color-profile pipeline of
`analyze_pdf` returns exactly `N` profiles with page indices `1..N` in
order; parsing stops at `N` profiles, and pages missing from the inkcov
output are padded with `{c:0, m:0, y:0, k:0, ink_type:""}`. -/
theorem c3_color_profiles_normalized (out : String) (N : ℤ)
    (h1 : 1 ≤ N) (h2 : N ≤ 2 ^ 63 - 1) :
    (analyzeColorProfiles out N).length = N.toNat ∧
    (analyzeColorProfiles out N).map (fun p => p.page) =
      (List.range N.toNat).map (fun n : ℕ => (n : ℤ) + 1) ∧
    ∀ p ∈ (analyzeColorProfiles out N).drop (parse_inkcov_profiles out N).length,
      p.c = 0 ∧ p.m = 0 ∧ p.y = 0 ∧ p.k = 0 ∧ p.ink_type = "" := by
  have husize : i64ToUsize N = N.toNat := by
    unfold i64ToUsize
    rw [Int.emod_eq_of_lt (by omega) (by omega)]
  have hparsedlen : (parse_inkcov_profiles out N).length ≤ N.toNat := by
    unfold parse_inkcov_profiles
    exact parseInkcovAux_length_le (by omega) (rustLines out) [] (by simp)
  have hparsedpages : (parse_inkcov_profiles out N).map (fun p => p.page) =
      (List.range (parse_inkcov_profiles out N).length).map (fun n : ℕ => (n : ℤ) + 1) := by
    unfold parse_inkcov_profiles
    exact parseInkcovAux_pages (rustLines out) [] (by simp)
  by_cases heq : (parse_inkcov_profiles out N).length = i64ToUsize N
  · have hpipeline : analyzeColorProfiles out N = parse_inkcov_profiles out N := by
      unfold analyzeColorProfiles
      rw [if_neg (by simpa using heq)]
    rw [hpipeline]
    rw [husize] at heq
    refine ⟨heq, by rw [hparsedpages, heq], ?_⟩
    rw [List.drop_length]
    simp
  · have hpipeline : analyzeColorProfiles out N =
        normalize_profiles (parse_inkcov_profiles out N) N := by
      unfold analyzeColorProfiles
      rw [if_pos heq]
    rw [husize] at heq
    have hlt : (parse_inkcov_profiles out N).length < N.toNat :=
      lt_of_le_of_ne hparsedlen heq
    rw [hpipeline]
    unfold normalize_profiles padProfiles
    have hmax : max N 0 = N := by omega
    rw [hmax, husize]
    rw [if_neg (by omega : ¬ N.toNat < (parse_inkcov_profiles out N).length)]
    generalize hP : parse_inkcov_profiles out N = P at *
    have hrenlen :
        (P.enum.map fun p => { p.2 with page := (p.1 : ℤ) + 1 }).length = P.length := by
      rw [List.length_map, List.enum_length]
    obtain ⟨tail, htail, hzero⟩ :=
      padProfilesAux_eq_append
        (N.toNat - (P.enum.map fun p => { p.2 with page := (p.1 : ℤ) + 1 }).length)
        (P.enum.map fun p => { p.2 with page := (p.1 : ℤ) + 1 })
    refine ⟨?_, ?_, ?_⟩
    · rw [padProfilesAux_length, hrenlen]
      omega
    · have := padProfilesAux_pages
        (N.toNat - (P.enum.map fun p => { p.2 with page := (p.1 : ℤ) + 1 }).length)
        (P.enum.map fun p => { p.2 with page := (p.1 : ℤ) + 1 })
        (by rw [renumbered_pages, hrenlen])
      rw [this, padProfilesAux_length, hrenlen]
      have : P.length + (N.toNat - P.length) = N.toNat := by omega
      rw [this]
    · intro p hp
      rw [htail] at hp
      rw [← hrenlen] at hp
      rw [List.drop_left] at hp
      exact hzero p hp

/-- C3 witness: empty inkcov output with a 2-page document yields two
zero profiles numbered 1 and 2. -/
theorem c3_witness :
    (analyzeColorProfiles "" 2).length = (2 : ℤ).toNat ∧
    (analyzeColorProfiles "" 2).map (fun p => p.page) =
      (List.range (2 : ℤ).toNat).map (fun n : ℕ => (n : ℤ) + 1) ∧
    ∀ p ∈ (analyzeColorProfiles "" 2).drop (parse_inkcov_profiles "" 2).length,
      p.c = 0 ∧ p.m = 0 ∧ p.y = 0 ∧ p.k = 0 ∧ p.ink_type = "" :=
  c3_color_profiles_normalized "" 2 (by decide) (by decide)

/-- C9 witness: a `file` part with filename `b.txt` and no content type
is the shape the theorem exposes. -/
theorem c9_witness :
    (save_pdf_from_multipart [⟨some "file", some "b.txt", none, [], ""⟩] 9).1 =
        .error .UnsupportedFileType ∧
      ∃ pre fp post,
        [(⟨some "file", some "b.txt", none, [], ""⟩ : Part)] = pre ++ fp :: post ∧
        (∀ q ∈ pre, q.name ≠ some "file") ∧ fp.name = some "file" ∧
        ∃ f, fp.filename = some f ∧ strEndsWith (strAsciiLower f) ".pdf" = false ∧
          fp.contentType ≠ some "application/pdf" :=
  ⟨by decide, c9_anonymous_part_accepted.2.1
    [⟨some "file", some "b.txt", none, [], ""⟩] 9 (by decide)⟩

end GhostServer
